import Mathlib

/-!
Verification development for the core algorithms of the midi-orchestra
repository: the voice partitioner of separate-midi.py (sort, split phase,
merge phase, empty-voice removal), the ambitus grouper and the combination
tree enumerator of preprocess-midi.py.  The Python code is embedded
shallowly: times and ratios are exact rationals, Python lists are Lean
lists, and loops are fuelled or structurally recursive functions.  A
function returns Option where the Python can raise an exception; none
models the exception.
-/

namespace MidiOrchestra

/-- An event as held by separate-midi.py's SortableNote: velocity, pitch and
a time interval.  The source's field `end` is renamed `stop` (Lean keyword);
ordering (`__lt__`) is by `start` alone. -/
structure Note where
  velocity : Int
  pitch : Int
  start : Rat
  stop : Rat
deriving DecidableEq, Repr, Inhabited

/-- Insert a note into an already processed prefix, keeping existing notes
whose start is ≤ the new note's start in front of it.  Folding this over the
input reproduces a stable ascending sort, which is what Python's list.sort()
computes with SortableNote.__lt__ comparing starts. -/
def insertByStart (x : Note) : List Note → List Note
  | [] => [x]
  | y :: ys => if y.start ≤ x.start then y :: insertByStart x ys else x :: y :: ys

/-- notes.sort() of separate-midi.py line 70: stable sort by ascending start. -/
def sortByStart (l : List Note) : List Note :=
  l.foldl (fun acc x => insertByStart x acc) []

/-- Length of the run of notes queued at a reference note (inner while of
lines 88-92).  Index j is queued while `j < len(part) - 1` (note the
`- 1`: the last index of the part is never queued) and part[j].start is
≤ the reference note's end; the run is contiguous starting at j.  The
fuel only bounds recursion depth; part.length steps always suffice since
j stays below part.length. -/
def queueLenAux (part : List Note) (refStop : Rat) : Nat → Nat → Nat
  | 0, _ => 0
  | fuel + 1, j =>
    if h : j + 1 < part.length then
      if (part.get ⟨j, by omega⟩).start ≤ refStop then
        1 + queueLenAux part refStop fuel (j + 1)
      else 0
    else 0

def queueLen (part : List Note) (refStop : Rat) (j : Nat) : Nat :=
  queueLenAux part refStop part.length j

/-- Append empty parts until index idx exists (lines 97-99); idx + 1
appends always suffice. -/
def ensurePartAux : Nat → List (List Note) → Nat → List (List Note)
  | 0, parts, _ => parts
  | fuel + 1, parts, idx =>
    if parts.length ≤ idx then ensurePartAux fuel (parts ++ [[]]) idx else parts

def ensurePart (parts : List (List Note)) (idx : Nat) : List (List Note) :=
  ensurePartAux (idx + 1) parts idx

/-- Append a note at the end of parts[idx]. -/
def appendAt (parts : List (List Note)) (idx : Nat) (x : Note) : List (List Note) :=
  parts.set idx (parts.getD idx [] ++ [x])

/-- Move the queued run (lines 94-104): the k-th queued note, sitting at
index i+1+k of the part at `offset`, is appended to part offset+k+1,
created on demand.  The reads are from the part at `offset`, which the
appends never touch since every target index is larger. -/
def moveQueue (parts : List (List Note)) (offset i L : Nat) : List (List Note) :=
  (List.range L).foldl
    (fun ps k =>
      let tgt := offset + k + 1
      let ps' := ensurePart ps tgt
      appendAt ps' tgt ((ps'.getD offset []).getD (i + 1 + k) default))
    parts

/-- Delete the queued run from the current part (lines 106-110).  A
single queued note (index i+1) is removed outright; a longer run deletes
only indices i+1 .. i+L-1 — the source's slice `queue[0]:queue[-1]`
stops one short, so the last queued note stays behind as a duplicate. -/
def deleteQueue (part : List Note) (i L : Nat) : List Note :=
  if L == 1 then part.take (i + 1) ++ part.drop (i + 2)
  else part.take (i + 1) ++ part.drop (i + L)

/-- The scan of one part in the split phase (lines 84-117).  At each
reference index the queued run is moved and deleted, after which the scan
restarts at index 0; with an empty queue the reference advances.  Fuel
bounds the iteration count; every call below supplies enough fuel for the
loop to reach its exit condition, since each restart shrinks the part. -/
def processPart (fuel : Nat) (parts : List (List Note)) (offset noteIndex : Nat) :
    List (List Note) :=
  match fuel with
  | 0 => parts
  | fuel + 1 =>
    let part := parts.getD offset []
    if h : noteIndex < part.length then
      let L := queueLen part (part.get ⟨noteIndex, h⟩).stop (noteIndex + 1)
      if L == 0 then processPart fuel parts offset (noteIndex + 1)
      else
        let parts' := moveQueue parts offset noteIndex L
        processPart fuel (parts'.set offset (deleteQueue part noteIndex L)) offset 0
    else parts

/-- The split-phase worklist (lines 80-119): parts are processed in order
of creation, including parts appended along the way. -/
def splitLoop (fuel : Nat) (parts : List (List Note)) (offset : Nat) :
    List (List Note) :=
  match fuel with
  | 0 => parts
  | fuel + 1 =>
    if offset < parts.length then
      let part := parts.getD offset []
      splitLoop fuel
        (processPart ((part.length + 2) * (part.length + 2)) parts offset 0)
        (offset + 1)
    else parts

/-- Split phase of separate-midi.py: start from a single part holding all
notes sorted by start, then run the worklist. -/
def splitPhase (notes : List Note) : List (List Note) :=
  splitLoop ((notes.length + 2) * (notes.length + 2)) [sortByStart notes] 0

/-- The free-slot probe of the merge phase (lines 143-161): walk the
candidate voice from the front.  Walking past the last member reports no
space (even if the note fits after every member); an overlapping member
reports no space; a member starting strictly after the note's end reports
space. -/
def findFreeSpace (note : Note) : List Note → Bool
  | [] => false
  | m :: rest =>
    if ¬(note.stop ≤ m.start ∨ note.start ≥ m.stop) then false
    else if note.stop < m.start then true
    else findFreeSpace note rest

/-- bisect.bisect_left restricted to the start key: the exact CPython
binary search, also on lists that are not sorted.  hi - lo shrinks every
step, so fuel hi + 1 always reaches the exit. -/
def bisectLeftAux (a : List Note) (x : Note) : Nat → Nat → Nat → Nat
  | 0, lo, _ => lo
  | fuel + 1, lo, hi =>
    if lo < hi then
      let mid := (lo + hi) / 2
      if (a.getD mid default).start < x.start then bisectLeftAux a x fuel (mid + 1) hi
      else bisectLeftAux a x fuel lo mid
    else lo

def bisectLeft (a : List Note) (x : Note) (lo hi : Nat) : Nat :=
  bisectLeftAux a x (hi + 1) lo hi

/-- bisect.insort_left on the start key (line 164). -/
def insortLeft (a : List Note) (x : Note) : List Note :=
  a.insertIdx (bisectLeft a x 0 a.length) x

/-- Probe earlier voices nearest-first (lines 134-169): the argument is
other_part_index, counted down to 0. -/
def findTarget (note : Note) (parts : List (List Note)) : Nat → Option Nat
  | 0 => if findFreeSpace note (parts.getD 0 []) then some 0 else none
  | k + 1 =>
    if findFreeSpace note (parts.getD (k + 1) []) then some (k + 1)
    else findTarget note parts k

/-- Process the notes of voice partIndex in the merge phase (lines
132-169): each note is insorted into the nearest earlier voice with free
space, if any, and its position is queued for deletion.  Inserts only ever
touch strictly earlier voices, so the iterated list stays fixed. -/
def mergeNotes (parts : List (List Note)) (partIndex : Nat) :
    List (Nat × Note) → List Nat → (List (List Note)) × List Nat
  | [], queue => (parts, queue)
  | (ni, note) :: rest, queue =>
    match partIndex with
    | 0 => mergeNotes parts 0 rest queue
    | pi + 1 =>
      match findTarget note parts pi with
      | some t =>
        mergeNotes (parts.set t (insortLeft (parts.getD t []) note)) (pi + 1)
          rest (queue ++ [ni])
      | none => mergeNotes parts (pi + 1) rest queue

/-- Delete the queued positions from a part (lines 171-173; deleting in
descending index order equals keeping the positions not queued). -/
def deleteIdxs (part : List Note) (queue : List Nat) : List Note :=
  (part.enum.filter (fun p => ¬ queue.contains p.1)).map Prod.snd

/-- One voice of the merge phase: move what fits, then delete the moved
notes from this voice. -/
def mergePart (parts : List (List Note)) (partIndex : Nat) : List (List Note) :=
  let part := parts.getD partIndex []
  let pq := mergeNotes parts partIndex part.enum []
  pq.1.set partIndex (deleteIdxs (pq.1.getD partIndex []) pq.2)

/-- Merge phase (lines 128-173): voices are processed from the last
created to the first. -/
def mergeLoop (parts : List (List Note)) : Nat → List (List Note)
  | 0 => parts
  | k + 1 => mergeLoop (mergePart parts k) k

def mergePhase (parts : List (List Note)) : List (List Note) :=
  mergeLoop parts parts.length

/-- Remove empty voices (lines 177-184). -/
def removeEmptyParts (parts : List (List Note)) : List (List Note) :=
  parts.filter (fun p => ¬ p.isEmpty)

/-- The full voice partitioner of separate-midi.py: sort all notes by
start, split into parts, merge parts back where possible, drop empty
parts. -/
def separateVoices (notes : List Note) : List (List Note) :=
  removeEmptyParts (mergePhase (splitPhase notes))

/-- Two events overlap unless one ends before (or exactly when) the other
starts — the merge-phase test of lines 154-155, and the spec's notion. -/
def overlaps (a b : Note) : Bool :=
  ¬(a.stop ≤ b.start ∨ b.stop ≤ a.start)

/-- A voice is valid when no two of its events (by position) overlap. -/
def voiceValid (v : List Note) : Bool :=
  v.enum.all fun p => v.enum.all fun q => p.1 == q.1 || ¬ overlaps p.2 q.2

/-- Ascending-start order of a voice. -/
def voiceSortedByStart : List Note → Bool
  | [] => true
  | [_] => true
  | a :: b :: r => a.start ≤ b.start && voiceSortedByStart (b :: r)

/-- All events of all voices, in voice order. -/
def flattenParts (parts : List (List Note)) : List Note := parts.flatten

/-! ## Combination enumerator (preprocess-midi.py lines 141-188)

The combination tree is a heterogeneous Python list whose elements are
either candidate labels (numpy integers, which have no `__len__`) or nested
lists.  PyVal models such a value. -/

/-- A Python value inside the combination tree: an integer label or a list. -/
inductive PyVal where
  | lbl (k : Nat)
  | lst (xs : List PyVal)
deriving Repr

mutual

/-- Size of a tree value, used as traversal fuel. -/
def sizePy : PyVal → Nat
  | .lbl _ => 1
  | .lst xs => 1 + sizePyList xs

/-- Size of a list of tree values. -/
def sizePyList : List PyVal → Nat
  | [] => 0
  | x :: xs => sizePy x + sizePyList xs

end

/-- The label of a leaf.  All positions where this is applied hold labels in
every tree built by create_combination_tree; the 0 default is never hit
there. -/
def labelOf : PyVal → Nat
  | .lbl k => k
  | .lst _ => 0

/-- hasattr(x, '__len__') for tree values: true exactly for lists. -/
def isLst : PyVal → Bool
  | .lbl _ => false
  | .lst _ => true

/-- create_combination_tree (lines 141-155).  none models Python's None
(group index past the last group).  For each candidate of group g, the
label is appended and then the recursively built rest-tree is appended when
truthy; a None or empty-list result (the latter arises when group g+1 has no
candidates) is falsy and is skipped.  The source rebuilds the identical
rest-tree inside the loop; being pure, it is hoisted out here.  The fuel
bounds the recursion depth; the wrapper supplies options.length + 1, enough
to walk past the last group from any starting index. -/
def createTreeAux (options : List (List Nat)) : Nat → Nat → Option PyVal
  | 0, _ => none
  | fuel + 1, g =>
    if options.length ≤ g then none
    else
      let results := createTreeAux options fuel (g + 1)
      some (.lst ((options.getD g []).foldl
        (fun acc o =>
          let acc' := acc ++ [PyVal.lbl o]
          match results with
          | some (.lst (x :: xs)) => acc' ++ [.lst (x :: xs)]
          | _ => acc')
        []))

def create_combination_tree (options : List (List Nat)) (g : Nat) : Option PyVal :=
  createTreeAux options (options.length + 1) g

/-- The even indices 0, 2, ... visited by the loop
`for i in range(0, len(tree) - 1, 2)` of line 173. -/
def pairIdxs (len : Nat) : List Nat := List.range' 0 (len / 2) 2

/-- traverse_combination_tree (lines 158-188).  single is the path of
labels so far; result is the shared accumulator, reset at depth 0.  A call
on a bare label returns the extended path, which the callers append to
result; those leaf calls are inlined at their call sites here, so this
function handles list trees and returns the accumulator.  For each even
index below len-1: when tree[i+1] is a label the tree is a flat candidate
list and the path extension of every element is appended (the source's
inner `for n in tree`); when tree[i+1] is a sub-tree, recurse into it with
the path extended by tree[i].  Fuel bounds the recursion depth; one unit
per tree level suffices. -/
def traverseAux (fuel : Nat) (t : PyVal) (single : List Nat)
    (result : List (List Nat)) (depth : Nat) : List (List Nat) :=
  match fuel with
  | 0 => result
  | fuel + 1 =>
    match t with
    | .lbl _ => result
    | .lst xs =>
      let res0 := if depth == 0 then [] else result
      let res1 :=
        if xs.length == 1 then res0 ++ [single ++ [labelOf (xs.getD 0 (.lbl 0))]]
        else res0
      (pairIdxs xs.length).foldl
        (fun result i =>
          let sub := xs.getD (i + 1) (.lbl 0)
          if isLst sub then
            traverseAux fuel sub (single ++ [labelOf (xs.getD i (.lbl 0))]) result (depth + 1)
          else result ++ xs.map (fun n => single ++ [labelOf n]))
        res1

/-- Main's call traverse_combination_tree(tree, single_combination=[]) on
the tree built for the full options list; a None tree (never produced for a
non-empty options list) yields no combinations. -/
def traverse_combination_tree (t : Option PyVal) : List (List Nat) :=
  match t with
  | none => []
  | some tr => traverseAux (sizePy tr + 1) tr [] [] 0

/-! ## Ambitus grouper (preprocess-midi.py lines 74-138) and the
combination-group check of main (lines 445-461) -/

/-- Python list indexing l[i]: non-negative indices from the front,
negative indices from the back; none models IndexError. -/
def pyGet {α : Type} (l : List α) (i : Int) : Option α :=
  if 0 ≤ i then l.get? i.toNat
  else if -(l.length : Int) ≤ i then l.get? (i + l.length).toNat else none

/-- Python list assignment l[i] = a; none models IndexError. -/
def pySet {α : Type} (l : List α) (i : Int) (a : α) : Option (List α) :=
  if 0 ≤ i then (if i < (l.length : Int) then some (l.set i.toNat a) else none)
  else if -(l.length : Int) ≤ i then some (l.set (i + l.length).toNat a) else none

/-- One closeness-score row [part_index, voice_index, closeness]. -/
structure ScoreEntry where
  part : Nat
  voice : Nat
  closeness : Rat
deriving DecidableEq, Repr

/-- Step 3 of identify_ambitus_groups (lines 94-110): for every group
window and every part, the closeness score
1 - (|window.lo - part.low| + |window.hi - part.high|) / (2 * total).
Rat division by zero yields 0.  numpy instead yields -inf on every row when
interval_total = 0; since the raw distance is then the same for every
(part, voice) pair, all rows carry one equal degenerate value in either
semantics and the stable sort downstream behaves identically. -/
def closenessScores (partIntervals : List (Nat × Int × Int)) (V : Nat)
    (imin islice itotal : Int) : List ScoreEntry :=
  (List.range V).foldl
    (fun acc (v : Nat) =>
      let rmin := imin + islice * (v : Int) + 1
      let rmax := imin + islice * (v : Int) + islice
      acc ++ partIntervals.map (fun p =>
        { part := p.1, voice := v,
          closeness :=
            1 - (((rmin - p.2.1).natAbs + (rmax - p.2.2).natAbs : Nat) : Rat)
              / ((itotal : Rat) * 2) }))
    []

/-- Insert one score row behind every already placed row of closeness ≥ its
own; folding this left over the rows is a stable descending sort, which is
what Python's sorted(..., reverse=True) computes on the closeness key. -/
def insertScoreDesc (x : ScoreEntry) : List ScoreEntry → List ScoreEntry
  | [] => [x]
  | y :: ys => if x.closeness ≤ y.closeness then y :: insertScoreDesc x ys
               else x :: y :: ys

/-- sorted(part_scores, key=closeness, reverse=True) of line 121. -/
def sortScoresDesc (l : List ScoreEntry) : List ScoreEntry :=
  l.foldl (fun acc x => insertScoreDesc x acc) []

/-- Filter this part's rows, sort them descending, take the top row's
group (lines 119-123); none models the IndexError on an empty score list. -/
def bestGroupFor (scores : List ScoreEntry) (i : Nat) : Option Nat :=
  match sortScoresDesc (scores.filter (fun s => s.part == i)) with
  | [] => none
  | s :: _ => some s.voice

/-- The capacity test groups_count[g] / n > dist[g] of lines 125-126, with
Python indexing; none models IndexError. -/
def overCap (counts : List Nat) (dist : List Rat) (n : Nat) (g : Int) : Option Bool :=
  match pyGet counts g, pyGet dist g with
  | some c, some p => some (decide (p < (c : Rat) / (n : Rat)))
  | _, _ => none

/-- The outward-alternating capacity probe (lines 124-132): while the
current group is over capacity, flip direction at the boundary groups and
step.  The fuel bounds the iteration count; 2V+4 steps reach every group
index whenever some group is under capacity (proved below), and the V = 1
escape below index -1 raises IndexError (none) within 3 steps.  Fuel
exhaustion therefore models the only remaining behaviour: the loop
spinning forever over fully over-capacity groups. -/
def probe (counts : List Nat) (dist : List Rat) (n V : Nat) :
    Nat → Int → Bool → Option Int
  | 0, _, _ => none
  | fuel + 1, g, dir =>
    match overCap counts dist n g with
    | none => none
    | some false => some g
    | some true =>
      let dir' := if g == (V : Int) - 1 then false
                  else if g == 0 then true else dir
      probe counts dist n V fuel (g + (if dir' then 1 else -1)) dir'

/-- Step 4 of identify_ambitus_groups (lines 113-136): assign each part in
order to the probed variant of its best group, maintaining the counts. -/
def assignParts (scores : List ScoreEntry) (dist : List Rat) (n V : Nat) :
    List (Nat × Int × Int) → List Nat → List Int → Option (List Int)
  | [], _, acc => some acc
  | p :: rest, counts, acc =>
    match bestGroupFor scores p.1 with
    | none => none
    | some best =>
      match probe counts dist n V (2 * V + 4) (best : Int) true with
      | none => none
      | some g =>
        match pySet counts g ((pyGet counts g).getD 0 + 1) with
        | none => none
        | some counts' => assignParts scores dist n V rest counts' (acc ++ [g])

/-- np.min over a non-empty integer list. -/
def listMinI (l : List Int) : Int := l.foldl min (l.headD 0)

/-- np.max over a non-empty integer list. -/
def listMaxI (l : List Int) : Int := l.foldl max (l.headD 0)

/-- identify_ambitus_groups (lines 74-138) applied to the per-part ambitus
list [(low, high), ...] that the external Ambitus analysis produces.  The
part_intervals rows are [part_index, low, high]; interval_slice is
math.ceil of the exact rational interval_total / voice_num.  none models a
Python exception (np.min on no parts, or IndexError). -/
def identify_ambitus_groups (intervals : List (Int × Int)) (V : Nat)
    (dist : List Rat) : Option (List Int) :=
  match intervals with
  | [] => none
  | _ :: _ =>
    let partIntervals := intervals.enum.map (fun p => (p.1, p.2.1, p.2.2))
    let imin := listMinI (intervals.map (fun p => p.1))
    let imax := listMaxI (intervals.map (fun p => p.2))
    let itotal := imax - imin
    let islice := ⌈(itotal : Rat) / (V : Rat)⌉
    let scores := closenessScores partIntervals V imin islice itotal
    assignParts scores dist intervals.length V partIntervals (List.replicate V 0) []

/-- np.argwhere(part_groups == group_index).flatten() of line 448: the part
indices assigned to the group, in order. -/
def optionsForGroup (partGroups : List Int) (g : Nat) : List Nat :=
  (partGroups.enum.filter (fun p => p.2 == (g : Int))).map Prod.fst

/-- Main's combination-option loop (lines 445-457): walk groups 0..V-1
collecting each group's options; the first empty group sets the
cancellation flag and breaks.  Fuel V + 1 covers the at most V
iterations. -/
def collectOptionsAux (partGroups : List Int) (V : Nat) :
    Nat → Nat → List (List Nat) → (List (List Nat)) × Bool
  | 0, _, acc => (acc, false)
  | fuel + 1, g, acc =>
    if g < V then
      let opts := optionsForGroup partGroups g
      if opts.isEmpty then (acc ++ [opts], true)
      else collectOptionsAux partGroups V fuel (g + 1) (acc ++ [opts])
    else (acc, false)

/-- The combination options and the is_cancelled flag of main. -/
def combinationCheck (partGroups : List Int) (V : Nat) :
    (List (List Nat)) × Bool :=
  collectOptionsAux partGroups V (V + 1) 0 []

/-- is_cancelled of main lines 446-461: processing of the file is skipped
(no enumeration runs) when some group has no candidates. -/
def is_cancelled (partGroups : List Int) (V : Nat) : Bool :=
  (combinationCheck partGroups V).2

/-- The same first-empty-group cancellation test applied directly to an
options list handed to the enumerator. -/
def checkOptionsList : List (List Nat) → Bool
  | [] => false
  | g :: rest => if g.isEmpty then true else checkOptionsList rest

/-- Shorthand for the notes of the concrete computations: velocity 0 and
the pitch doubling as an event id. -/
def mkNote (i : Int) (s e : Rat) : Note := ⟨0, i, s, e⟩

end MidiOrchestra

open MidiOrchestra

/-- C1.  The claim states that the partitioner neither loses nor duplicates
events.  The code duplicates: on the four mutually overlapping events
(0,10),(1,10),(2,10),(3,10) the split phase's run deletion
`del part_notes[queue[0]:queue[-1]]` stops one index short, so event
(2,10) is kept in the old voice as well as moved, and the final output
holds five events, event (2,10) twice. -/
theorem C1_partition_completeness_code_bug :
    separateVoices [mkNote 0 0 10, mkNote 1 1 10, mkNote 2 2 10, mkNote 3 3 10] =
      [[mkNote 0 0 10, mkNote 3 3 10], [mkNote 1 1 10, mkNote 2 2 10],
        [mkNote 2 2 10]] ∧
    (flattenParts (separateVoices
        [mkNote 0 0 10, mkNote 1 1 10, mkNote 2 2 10, mkNote 3 3 10])).count
        (mkNote 2 2 10) = 2 ∧
    ([mkNote 0 0 10, mkNote 1 1 10, mkNote 2 2 10, mkNote 3 3 10]).count
        (mkNote 2 2 10) = 1 := by
  refine ⟨by decide, by decide, by decide⟩

/-- C2.  The claim states every output voice is overlap-free.  The split
scan's queue condition `next_note_index < len(part_notes) - 1` never queues
the last index of a voice, so on the two overlapping events (0,10),(1,10)
both stay in the single voice, which the merge phase cannot fix. -/
theorem C2_partition_validity_code_bug :
    separateVoices [mkNote 0 0 10, mkNote 1 1 10] =
      [[mkNote 0 0 10, mkNote 1 1 10]] ∧
    voiceValid ((separateVoices [mkNote 0 0 10, mkNote 1 1 10]).getD 0 []) =
      false := by
  refine ⟨by decide, by decide⟩

/-- C3.  The claim states the enumerator emits the Cartesian product
exactly once per tuple.  On a single group of four candidates the flat-list
branch of the traversal runs once per even index below len-1, emitting each
tuple twice: 8 results instead of 4. -/
theorem C3_combination_cardinality_code_bug :
    traverse_combination_tree (create_combination_tree [[0, 1, 2, 3]] 0) =
      [[0], [1], [2], [3], [0], [1], [2], [3]] ∧
    (traverse_combination_tree (create_combination_tree [[0, 1, 2, 3]] 0)).length = 8 ∧
    (traverse_combination_tree (create_combination_tree [[0, 1, 2, 3]] 0)).count [0] = 2 := by
  refine ⟨by decide, by decide, by decide⟩

/-- C9.  The claim states re-running the partitioner on its own output
(voices pairwise overlap-free) reproduces the partition.  On the five
events below the first run duplicates event (3,4) yet every output voice is
overlap-free; re-running on the flattened output yields four voices
instead of three. -/
theorem C9_idempotence_code_bug :
    separateVoices [mkNote 0 0 10, mkNote 1 1 2, mkNote 2 3 4,
        mkNote 3 20 21, mkNote 4 22 23] =
      [[mkNote 0 0 10, mkNote 3 20 21, mkNote 4 22 23],
        [mkNote 1 1 2, mkNote 2 3 4], [mkNote 2 3 4]] ∧
    ([[mkNote 0 0 10, mkNote 3 20 21, mkNote 4 22 23],
        [mkNote 1 1 2, mkNote 2 3 4], [mkNote 2 3 4]]).all voiceValid = true ∧
    separateVoices (flattenParts
        [[mkNote 0 0 10, mkNote 3 20 21, mkNote 4 22 23],
          [mkNote 1 1 2, mkNote 2 3 4], [mkNote 2 3 4]]) ≠
      [[mkNote 0 0 10, mkNote 3 20 21, mkNote 4 22 23],
        [mkNote 1 1 2, mkNote 2 3 4], [mkNote 2 3 4]] := by
  refine ⟨by decide, by decide, by decide⟩

/-- C10.  On groups [[A,B],[C],[D,E,F]] (labels 0..5) the enumerator emits
exactly the six tuples of the Cartesian product in lexicographic order:
groups in index order, candidates in their original order. -/
theorem C10_enumeration_order :
    traverse_combination_tree (create_combination_tree [[0, 1], [2], [3, 4, 5]] 0) =
      [[0, 2, 3], [0, 2, 4], [0, 2, 5], [1, 2, 3], [1, 2, 4], [1, 2, 5]] := by
  decide

/-- C4, counterexample.  Two parts with equal ambitus, V = 2 groups,
proportions [1/2, 1/2] (so total_parts = 2 ≥ V and Σp = 1): both parts'
closest group is 0 and the strict-> capacity test admits both, so group 1
ends with zero parts and the grouper returns [0, 0] unrepaired; the
caller's check then cancels the file. -/
theorem C4_grouping_coverage_counterexample :
    identify_ambitus_groups [(1, 2), (1, 2)] 2 [1/2, 1/2] = some [0, 0] ∧
    optionsForGroup [0, 0] 1 = [] ∧
    is_cancelled [0, 0] 2 = true := by
  refine ⟨by with_unfolding_all decide, by decide, by decide⟩

/-- C5, counterexample.  With groups [[0], []] — the second group has zero
candidates — the enumerator emits one combination, not zero: the empty
second group makes create_combination_tree return the falsy empty list,
which is silently skipped, so the tree is the bare leaf list [0] and the
traversal emits the one-element tuple [0]. -/
theorem C5_empty_product_counterexample :
    traverse_combination_tree (create_combination_tree [[0], []] 0) = [[0]] := by
  decide

/-- C6, counterexample.  Four parts all spanning the single pitch 5
(interval_total = 0), V = 2, proportions [1/2, 1/2]: the degenerate
closeness makes every part rank group 0 first, but the capacity probe
diverts the fourth part to group 1, so not every part is assigned to
group 0. -/
theorem C6_degenerate_ambitus_counterexample :
    identify_ambitus_groups [(5, 5), (5, 5), (5, 5), (5, 5)] 2 [1/2, 1/2] =
      some [0, 0, 0, 1] := by
  with_unfolding_all decide

/-- C8, counterexample.  On the six events below the split phase produces
voice 2 = [(14/5, 50), (5/2, 13/5)], whose starts descend: the split
phase's plain appends do not keep voices sorted by start. -/
theorem C8_voice_sortedness_counterexample :
    splitPhase [mkNote 0 0 1, mkNote 1 (1/2) 100, mkNote 2 2 3,
        mkNote 3 (5/2) (13/5), mkNote 4 (14/5) 50, mkNote 5 4 5] =
      [[mkNote 0 0 1, mkNote 2 2 3, mkNote 5 4 5],
        [mkNote 1 (1/2) 100, mkNote 4 (14/5) 50],
        [mkNote 4 (14/5) 50, mkNote 3 (5/2) (13/5)]] ∧
    voiceSortedByStart [mkNote 4 (14/5) 50, mkNote 3 (5/2) (13/5)] = false := by
  refine ⟨by with_unfolding_all decide, by with_unfolding_all decide⟩

/-- Helper: the cancellation loop starting at group g with enough fuel
reports true exactly when some group in [g, V) has no candidates. -/
theorem collectOptionsAux_cancel_iff (pg : List Int) (V : Nat) :
    ∀ fuel g acc, V ≤ g + fuel →
      ((collectOptionsAux pg V fuel g acc).2 = true ↔
        ∃ j, g ≤ j ∧ j < V ∧ optionsForGroup pg j = []) := by
  intro fuel
  induction fuel with
  | zero =>
    intro g acc h
    simp only [collectOptionsAux]
    constructor
    · intro hf; cases hf
    · rintro ⟨j, hgj, hjV, _⟩; omega
  | succ fuel ih =>
    intro g acc h
    by_cases hgV : g < V
    · simp only [collectOptionsAux, if_pos hgV]
      by_cases he : (optionsForGroup pg g).isEmpty
      · simp only [if_pos he]
        constructor
        · intro _; exact ⟨g, le_refl g, hgV, List.isEmpty_iff.mp he⟩
        · intro _; trivial
      · simp only [if_neg he]
        rw [ih (g + 1) (acc ++ [optionsForGroup pg g]) (by omega)]
        constructor
        · rintro ⟨j, hj1, hj2, hj3⟩; exact ⟨j, by omega, hj2, hj3⟩
        · rintro ⟨j, hj1, hj2, hj3⟩
          refine ⟨j, ?_, hj2, hj3⟩
          rcases Nat.eq_or_lt_of_le hj1 with h' | h'
          · exfalso; apply he; rw [h']; exact List.isEmpty_iff.mpr hj3
          · omega
    · simp only [collectOptionsAux, if_neg hgV]
      constructor
      · intro hf; cases hf
      · rintro ⟨j, hgj, hjV, _⟩; omega

/-- C4, amended.  The grouper performs no repair of empty groups, and a
group can end with zero parts even when total_parts ≥ V (see the
counterexample); instead, the caller's check over the grouper's output
cancels processing of the file exactly when some group in [0, V) received
no parts. -/
theorem C4_grouping_coverage_amended (partGroups : List Int) (V : Nat) :
    is_cancelled partGroups V = true ↔
      ∃ g, g < V ∧ optionsForGroup partGroups g = [] := by
  unfold is_cancelled combinationCheck
  rw [collectOptionsAux_cancel_iff partGroups V (V + 1) 0 [] (by omega)]
  constructor
  · rintro ⟨j, _, hj, he⟩; exact ⟨j, hj, he⟩
  · rintro ⟨j, hj, he⟩; exact ⟨j, Nat.zero_le j, hj, he⟩

/-- C5, amended.  The program never lets the enumerator see an empty
group: main's pre-check cancels the file whenever any group is empty.
The direct empty-product behaviour of the enumerator holds only when the
first group is empty (the tree is then the empty list and zero
combinations are emitted); an empty later group instead silently drops the
remaining groups from the tuples (see the counterexample). -/
theorem C5_empty_product_amended (opts : List (List Nat)) (h : [] ∈ opts) :
    checkOptionsList opts = true ∧
      (∀ rest, opts = [] :: rest →
        traverse_combination_tree (create_combination_tree opts 0) = []) := by
  constructor
  · induction opts with
    | nil => cases h
    | cons g rest ih =>
      rw [checkOptionsList]
      by_cases hg : g.isEmpty
      · simp [hg]
      · simp only [if_neg hg]
        rcases List.mem_cons.mp h with h' | h'
        · exact absurd (List.isEmpty_iff.mpr h'.symm) hg
        · exact ih h'
  · rintro rest rfl
    show traverse_combination_tree (createTreeAux ([] :: rest) (rest.length + 1 + 1) 0) = []
    simp [createTreeAux, traverse_combination_tree, traverseAux, sizePy, sizePyList,
      pairIdxs]

/-- C5, amended, witness at opts = [[], [5]]. -/
theorem C5_empty_product_amended_witness :
    checkOptionsList [[], [5]] = true ∧
      traverse_combination_tree (create_combination_tree [[], [5]] 0) = [] := by
  have h := C5_empty_product_amended [[], [5]] (by decide)
  exact ⟨h.1, h.2 [[5]] rfl⟩

/-- Helper: getD at an in-range index is getElem. -/
theorem getD_eq_getElem' (l : List Note) (i : Nat) (h : i < l.length) :
    l.getD i default = l[i] := by
  simp [List.getD_eq_getElem?_getD, List.getElem?_eq_getElem h]

/-- Helper: the Bool sortedness test is pairwise start-monotonicity. -/
theorem voiceSorted_iff_pairwise (v : List Note) :
    voiceSortedByStart v = true ↔
      v.Pairwise (fun a b : Note => a.start ≤ b.start) := by
  induction v with
  | nil => simp [voiceSortedByStart]
  | cons a t ih =>
    cases t with
    | nil => simp [voiceSortedByStart]
    | cons b r =>
      rw [voiceSortedByStart, Bool.and_eq_true, ih]
      constructor
      · rintro ⟨hab, hp⟩
        have hab' : a.start ≤ b.start := of_decide_eq_true hab
        rw [List.pairwise_cons]
        refine ⟨?_, hp⟩
        intro z hz
        rcases List.mem_cons.mp hz with rfl | hz'
        · exact hab'
        · exact le_trans hab' ((List.pairwise_cons.mp hp).1 z hz')
      · intro hp
        rw [List.pairwise_cons] at hp
        exact ⟨decide_eq_true (hp.1 b (List.mem_cons_self b r)), hp.2⟩

/-- Helper: on a start-sorted list the bisect_left binary search lands at
the boundary: everything before the result starts strictly below the new
note, everything from the result on starts at or above it. -/
theorem bisectLeftAux_spec (a : List Note) (x : Note)
    (hs : ∀ i j : Nat, i ≤ j → j < a.length →
      (a.getD i default).start ≤ (a.getD j default).start) :
    ∀ fuel lo hi, hi - lo < fuel → lo ≤ hi → hi ≤ a.length →
      (∀ i, i < lo → (a.getD i default).start < x.start) →
      (∀ i, hi ≤ i → i < a.length → x.start ≤ (a.getD i default).start) →
      lo ≤ bisectLeftAux a x fuel lo hi ∧ bisectLeftAux a x fuel lo hi ≤ hi ∧
      (∀ i, i < bisectLeftAux a x fuel lo hi →
        (a.getD i default).start < x.start) ∧
      (∀ i, bisectLeftAux a x fuel lo hi ≤ i → i < a.length →
        x.start ≤ (a.getD i default).start) := by
  intro fuel
  induction fuel with
  | zero => intro lo hi hfuel; exact absurd hfuel (by omega)
  | succ fuel ih =>
    intro lo hi hfuel hlh hhl hlow hhigh
    rw [bisectLeftAux]
    by_cases h : lo < hi
    · simp only [if_pos h]
      by_cases hc : (a.getD ((lo + hi) / 2) default).start < x.start
      · simp only [if_pos hc]
        have hstep := ih ((lo + hi) / 2 + 1) hi (by omega) (by omega) hhl
          (fun i hi' =>
            lt_of_le_of_lt (hs i ((lo + hi) / 2) (by omega) (by omega)) hc)
          hhigh
        exact ⟨by omega, hstep.2.1, hstep.2.2⟩
      · simp only [if_neg hc]
        have hstep := ih lo ((lo + hi) / 2) (by omega) (by omega) (by omega) hlow
          (fun i hmi hia => le_trans (not_lt.mp hc) (hs ((lo + hi) / 2) i hmi hia))
        exact ⟨hstep.1, by omega, hstep.2.2⟩
    · simp only [if_neg h]
      have hlh' : lo = hi := by omega
      exact ⟨le_refl lo, by omega, hlow, fun i hi1 hi2 => hhigh i (by omega) hi2⟩

/-- Helper: inserting a note at a position whose left side starts no later
and whose right side starts no earlier keeps the list pairwise sorted. -/
theorem pairwise_insertIdx_of_bounds (x : Note) :
    ∀ (a : List Note) (p : Nat), p ≤ a.length →
      a.Pairwise (fun u v : Note => u.start ≤ v.start) →
      (∀ i, i < p → (a.getD i default).start ≤ x.start) →
      (∀ i, p ≤ i → i < a.length → x.start ≤ (a.getD i default).start) →
      (a.insertIdx p x).Pairwise (fun u v : Note => u.start ≤ v.start) := by
  intro a
  induction a with
  | nil =>
    intro p hp _ _ _
    have hp0 : p = 0 := by simpa using hp
    subst hp0
    simp
  | cons y ys ih =>
    intro p hp hpw hbefore hafter
    cases p with
    | zero =>
      rw [List.insertIdx_zero, List.pairwise_cons]
      refine ⟨?_, hpw⟩
      intro z hz
      rcases List.mem_iff_getElem.mp hz with ⟨i, hi, rfl⟩
      have := hafter i (Nat.zero_le i) hi
      rwa [getD_eq_getElem' _ i hi] at this
    | succ q =>
      rw [List.insertIdx_succ_cons, List.pairwise_cons]
      rw [List.pairwise_cons] at hpw
      constructor
      · intro z hz
        rcases (List.mem_insertIdx (by simpa using Nat.le_of_succ_le_succ hp)).mp hz
          with rfl | hz'
        · exact hbefore 0 (Nat.succ_pos q)
        · exact hpw.1 z hz'
      · refine ih q (by simpa using hp) hpw.2 ?_ ?_
        · intro i hi
          exact hbefore (i + 1) (by omega)
        · intro i hqi hilen
          exact hafter (i + 1) (by omega) (by simpa using hilen)

/-- C8, amended.  The split phase does not keep voices in ascending start
order (its relocations append, see the counterexample), but every
merge-phase insertion — bisect.insort_left on the start key — into a voice
that is in ascending start order preserves that order, for arbitrarily
many insertions. -/
theorem C8_merge_insert_sorted_amended (v : List Note) (x : Note)
    (h : voiceSortedByStart v = true) :
    voiceSortedByStart (insortLeft v x) = true := by
  rw [voiceSorted_iff_pairwise] at h ⊢
  have hs : ∀ i j : Nat, i ≤ j → j < v.length →
      (v.getD i default).start ≤ (v.getD j default).start := by
    intro i j hij hj
    rcases Nat.eq_or_lt_of_le hij with rfl | hij'
    · exact le_refl _
    · have hp := List.pairwise_iff_getElem.mp h i j (by omega) hj hij'
      rwa [getD_eq_getElem' _ i (by omega), getD_eq_getElem' _ j hj]
  obtain ⟨h1, h2, h3, h4⟩ := bisectLeftAux_spec v x hs (v.length + 1) 0 v.length
    (by omega) (by omega) (le_refl _)
    (fun i hi => absurd hi (by omega))
    (fun i hi1 hi2 => absurd hi2 (by omega))
  exact pairwise_insertIdx_of_bounds x v _ h2 h
    (fun i hi => le_of_lt (h3 i hi)) h4

/-- C8, amended, witness: inserting (2,3) into the sorted voice
[(0,1), (10,11)] keeps it sorted. -/
theorem C8_merge_insert_sorted_amended_witness :
    voiceSortedByStart [mkNote 0 0 1, mkNote 2 10 11] = true ∧
      voiceSortedByStart
        (insortLeft [mkNote 0 0 1, mkNote 2 10 11] (mkNote 1 2 3)) = true := by
  exact ⟨by decide, C8_merge_insert_sorted_amended _ _ (by decide)⟩

/-- Helper: folding append of a generated block over a list is flatMap. -/
theorem foldl_append_eq_flatMap {α β : Type} (f : α → List β) :
    ∀ (l : List α) (acc : List β),
      l.foldl (fun a x => a ++ f x) acc = acc ++ l.flatMap f := by
  intro l
  induction l with
  | nil => intro acc; simp
  | cons x xs ih => intro acc; simp [List.foldl_cons, ih (acc ++ f x)]

/-- Helper: the score table is the voice-major flat map of the per-part
closeness rows. -/
theorem closenessScores_eq_flatMap (pI : List (Nat × Int × Int)) (V : Nat)
    (imin islice itotal : Int) :
    closenessScores pI V imin islice itotal =
      (List.range V).flatMap (fun v => pI.map (fun p =>
        ⟨p.1, v,
          1 - (((imin + islice * (v : Int) + 1 - p.2.1).natAbs +
            (imin + islice * (v : Int) + islice - p.2.2).natAbs : Nat) : Rat)
            / ((itotal : Rat) * 2)⟩)) := by
  unfold closenessScores
  exact foldl_append_eq_flatMap _ (List.range V) []

/-- Helper: filtering an index-enumeration for an index below the start
yields nothing. -/
theorem enumFrom_filter_lt {α : Type} :
    ∀ (l : List α) (k i : Nat), i < k →
      (l.enumFrom k).filter (fun q => q.1 == i) = [] := by
  intro l
  induction l with
  | nil => intro k i _; rfl
  | cons x xs ih =>
    intro k i hik
    rw [List.enumFrom_cons, List.filter_cons]
    have : ((k, x).1 == i) = false := by simp; omega
    rw [this]
    exact ih (k + 1) i (by omega)

/-- Helper: filtering the enumeration of a constant list for an in-range
index yields the single row at that index. -/
theorem enumFrom_filter_const {α : Type} (a : α) :
    ∀ (l : List α) (k i : Nat), (∀ x ∈ l, x = a) → k ≤ i → i < k + l.length →
      (l.enumFrom k).filter (fun q => q.1 == i) = [(i, a)] := by
  intro l
  induction l with
  | nil => intro k i _ h1 h2; simp at h2; omega
  | cons x xs ih =>
    intro k i hall h1 h2
    rw [List.enumFrom_cons, List.filter_cons]
    by_cases hk : k = i
    · subst hk
      have hx : x = a := hall x (List.mem_cons_self x xs)
      have hcond : ((k, x).1 == k) = true := by simp
      simp only [hcond, if_true, hx]
      rw [enumFrom_filter_lt xs (k + 1) k (by omega)]
    · have hcond : ((k, x).1 == i) = false := by simp; omega
      simp only [hcond, Bool.false_eq_true, if_false]
      exact ih (k + 1) i (fun y hy => hall y (List.mem_cons_of_mem x hy))
        (by omega) (by simp at h2; omega)

/-- Helper: a flat map of singletons is a map. -/
theorem flatMap_singleton_eq_map {α β : Type} (f : α → β) (l : List α) :
    (l.flatMap fun x => [f x]) = l.map f := by
  induction l with
  | nil => rfl
  | cons x xs ih => simp [List.flatMap_cons, ih]

/-- Helper: inserting a row whose closeness is at most every present
closeness lands at the back. -/
theorem insertScoreDesc_of_all_ge (x : ScoreEntry) :
    ∀ (l : List ScoreEntry), (∀ y ∈ l, x.closeness ≤ y.closeness) →
      insertScoreDesc x l = l ++ [x] := by
  intro l
  induction l with
  | nil => intro _; rfl
  | cons y ys ih =>
    intro h
    rw [insertScoreDesc, if_pos (h y (List.mem_cons_self y ys))]
    rw [ih (fun z hz => h z (List.mem_cons_of_mem y hz))]
    rfl

/-- Helper: the stable descending sort leaves a constant-closeness table
unchanged. -/
theorem sortScoresDesc_of_const (q : Rat) :
    ∀ (l : List ScoreEntry), (∀ s ∈ l, s.closeness = q) →
      sortScoresDesc l = l := by
  have haux : ∀ (l acc : List ScoreEntry), (∀ s ∈ l, s.closeness = q) →
      (∀ s ∈ acc, s.closeness = q) →
      l.foldl (fun a x => insertScoreDesc x a) acc = acc ++ l := by
    intro l
    induction l with
    | nil => intro acc _ _; simp
    | cons x xs ih =>
      intro acc hl hacc
      rw [List.foldl_cons]
      rw [insertScoreDesc_of_all_ge x acc (fun y hy => by
        rw [hl x (List.mem_cons_self x xs), hacc y hy])]
      rw [ih (acc ++ [x]) (fun s hs => hl s (List.mem_cons_of_mem x hs))
        (fun s hs => by
          rcases List.mem_append.mp hs with h' | h'
          · exact hacc s h'
          · rw [List.mem_singleton.mp h']; exact hl x (List.mem_cons_self x xs))]
      simp
  intro l hl
  exact (haux l [] hl (fun s hs => absurd hs (List.not_mem_nil s))).trans (by simp)

/-- Helper: Python indexing at a natural index inside the list. -/
theorem pyGet_eq_some_getD {α : Type} (l : List α) (g : Nat) (d : α)
    (h : g < l.length) : pyGet l (g : Int) = some (l.getD g d) := by
  unfold pyGet
  rw [if_pos (Int.natCast_nonneg g)]
  rw [Int.toNat_natCast]
  rw [List.get?_eq_getElem?, List.getElem?_eq_getElem h]
  simp [List.getD_eq_getElem?_getD, List.getElem?_eq_getElem h]

/-- Helper: Python assignment at a natural index inside the list. -/
theorem pySet_eq_some {α : Type} (l : List α) (g : Nat) (a : α)
    (h : g < l.length) : pySet l (g : Int) a = some (l.set g a) := by
  unfold pySet
  rw [if_pos (Int.natCast_nonneg g)]
  rw [if_pos (by exact_mod_cast h)]
  rw [Int.toNat_natCast]

/-- Helper: the capacity test at an in-range group evaluates the fraction
count/n against the group's target proportion. -/
theorem overCap_eval (counts : List Nat) (dist : List Rat) (n : Nat) (g : Nat)
    (hc : g < counts.length) (hd : g < dist.length) :
    overCap counts dist n (g : Int) =
      some (decide (dist.getD g 0 < (counts.getD g 0 : Rat) / (n : Rat))) := by
  unfold overCap
  rw [pyGet_eq_some_getD counts g 0 hc, pyGet_eq_some_getD dist g 0 hd]

/-- Helper: the probe stops immediately at an under-capacity group. -/
theorem probe_of_underCap (counts : List Nat) (dist : List Rat)
    (n V fuel : Nat) (g : Nat) (dir : Bool)
    (hc : g < counts.length) (hd : g < dist.length)
    (hu : ¬ (dist.getD g 0 < (counts.getD g 0 : Rat) / (n : Rat))) :
    probe counts dist n V (fuel + 1) (g : Int) dir = some (g : Int) := by
  rw [probe, overCap_eval counts dist n g hc hd, decide_eq_false hu]

/-- Helper: one over-capacity probe step unfolded. -/
theorem probe_unfold_over (counts : List Nat) (dist : List Rat)
    (n V f : Nat) (g : Int) (dir : Bool)
    (hover : overCap counts dist n g = some true) :
    probe counts dist n V (f + 1) g dir =
      probe counts dist n V f
        (g + (if (if g == (V : Int) - 1 then false
                  else if g == 0 then true else dir) then 1 else -1))
        (if g == (V : Int) - 1 then false else if g == 0 then true else dir) := by
  rw [probe, hover]

/-- Helper: walking downward, the probe reaches an under-capacity group at
or below its start. -/
theorem probe_descend (counts : List Nat) (dist : List Rat) (n V : Nat)
    (hc : counts.length = V) (hd : dist.length = V) :
    ∀ g : Nat, g < V →
      (∃ g', g' ≤ g ∧ ¬ (dist.getD g' 0 < (counts.getD g' 0 : Rat) / (n : Rat))) →
      ∀ fuel, g < fuel →
        ∃ r : Nat, r < V ∧
          probe counts dist n V fuel (g : Int) false = some (r : Int) := by
  intro g
  induction g with
  | zero =>
    rintro h0 ⟨g', hg', hu⟩ fuel hf
    obtain rfl : g' = 0 := Nat.le_zero.mp hg'
    obtain ⟨f, rfl⟩ : ∃ f, fuel = f + 1 := ⟨fuel - 1, by omega⟩
    exact ⟨0, h0, probe_of_underCap counts dist n V f 0 false (by omega) (by omega) hu⟩
  | succ g ih =>
    rintro hgV ⟨g', hg', hu'⟩ fuel hf
    obtain ⟨f, rfl⟩ : ∃ f, fuel = f + 1 := ⟨fuel - 1, by omega⟩
    by_cases hu : ¬ (dist.getD (g + 1) 0 < (counts.getD (g + 1) 0 : Rat) / (n : Rat))
    · exact ⟨g + 1, hgV,
        probe_of_underCap counts dist n V f (g + 1) false (by omega) (by omega) hu⟩
    · rw [not_not] at hu
      have hover : overCap counts dist n ((g + 1 : Nat) : Int) = some true := by
        rw [overCap_eval counts dist n (g + 1) (by omega) (by omega),
          decide_eq_true hu]
      rw [probe_unfold_over counts dist n V f _ false hover]
      have hne : g' ≠ g + 1 := fun he => (he ▸ hu') hu
      have h2 : ((((g + 1 : Nat)) : Int) == 0) = false := by
        rw [beq_eq_false_iff_ne]
        intro hcontra
        omega
      have hdir : (if ((g + 1 : Nat) : Int) == (V : Int) - 1 then false
          else if ((g + 1 : Nat) : Int) == 0 then true else false) = false := by
        cases hb : (((g + 1 : Nat) : Int) == (V : Int) - 1) <;>
          simp [hb, h2] <;> omega
      rw [hdir]
      have hstep : ((g + 1 : Nat) : Int) + (if false then 1 else -1) = (g : Int) := by
        simp
      rw [hstep]
      exact ih (by omega) ⟨g', by omega, hu'⟩ f (by omega)

/-- Helper: starting upward from any group, the probe terminates inside
[0, V) whenever some group is under capacity. -/
theorem probe_ascend (counts : List Nat) (dist : List Rat) (n V : Nat)
    (hc : counts.length = V) (hd : dist.length = V) :
    ∀ m g : Nat, g < V → V - g ≤ m →
      (∃ g', g' < V ∧ ¬ (dist.getD g' 0 < (counts.getD g' 0 : Rat) / (n : Rat))) →
      ∀ fuel, m + V ≤ fuel →
        ∃ r : Nat, r < V ∧
          probe counts dist n V fuel (g : Int) true = some (r : Int) := by
  intro m
  induction m with
  | zero => intro g hgV hm; omega
  | succ m ih =>
    intro g hgV hm hex fuel hf
    obtain ⟨f, rfl⟩ : ∃ f, fuel = f + 1 := ⟨fuel - 1, by omega⟩
    by_cases hu : ¬ (dist.getD g 0 < (counts.getD g 0 : Rat) / (n : Rat))
    · exact ⟨g, hgV,
        probe_of_underCap counts dist n V f g true (by omega) (by omega) hu⟩
    · rw [not_not] at hu
      have hover : overCap counts dist n ((g : Nat) : Int) = some true := by
        rw [overCap_eval counts dist n g (by omega) (by omega),
          decide_eq_true hu]
      rw [probe_unfold_over counts dist n V f _ true hover]
      rcases hex with ⟨g', hg'V, hu'⟩
      have hne : g' ≠ g := fun he => (he ▸ hu') hu
      by_cases htop : g = V - 1
      · have hV2 : 2 ≤ V := by omega
        have hdir : (if ((g : Nat) : Int) == (V : Int) - 1 then false
            else if ((g : Nat) : Int) == 0 then true else true) = false := by
          have h1 : (((g : Nat) : Int) == (V : Int) - 1) = true := by
            rw [beq_iff_eq]
            omega
          simp [h1]
        rw [hdir]
        have hstep : ((g : Nat) : Int) + (if false then 1 else -1) =
            ((V - 2 : Nat) : Int) := by
          simp
          omega
        rw [hstep]
        exact probe_descend counts dist n V hc hd (V - 2) (by omega)
          ⟨g', by omega, hu'⟩ f (by omega)
      · have hdir : (if ((g : Nat) : Int) == (V : Int) - 1 then false
            else if ((g : Nat) : Int) == 0 then true else true) = true := by
          have h1 : (((g : Nat) : Int) == (V : Int) - 1) = false := by
            rw [beq_eq_false_iff_ne]
            intro hcontra
            omega
          cases h2 : (((g : Nat) : Int) == 0) <;> simp [h1, h2]
        rw [hdir]
        have hstep : ((g : Nat) : Int) + (if true then 1 else -1) =
            ((g + 1 : Nat) : Int) := by
          simp
        rw [hstep]
        exact ih (g + 1) (by omega) (by omega) ⟨g', hg'V, hu'⟩ f (by omega)

/-- Helper: if the assigned mass is below the target mass, some group is
under capacity (the probe's termination certificate). -/
theorem exists_underCap :
    ∀ (counts : List Nat) (dist : List Rat) (n : Nat), 0 < n →
      counts.length = dist.length →
      (counts.sum : Rat) < (n : Rat) * dist.sum →
      ∃ g, g < counts.length ∧
        ¬ (dist.getD g 0 < (counts.getD g 0 : Rat) / (n : Rat)) := by
  intro counts
  induction counts with
  | nil =>
    intro dist n hn hlen hsum
    exfalso
    have : dist = [] := List.length_eq_zero.mp hlen.symm
    subst this
    simp at hsum
  | cons c cs ih =>
    intro dist n hn hlen hsum
    cases dist with
    | nil => simp at hlen
    | cons d ds =>
      by_cases hu : ¬ (d < (c : Rat) / (n : Rat))
      · exact ⟨0, by simp, by simpa using hu⟩
      · rw [not_not] at hu
        have hc : (n : Rat) * d < c := by
          rw [lt_div_iff (by positivity)] at hu
          linarith
        obtain ⟨g, hg, hgu⟩ := ih ds n hn (by simpa using hlen) (by
          have hts : ((c : Rat) + (cs.sum : Rat)) <
              (n : Rat) * d + (n : Rat) * ds.sum := by
            have h' := hsum
            rw [List.sum_cons, List.sum_cons, Nat.cast_add, mul_add] at h'
            exact h'
          linarith)
        exact ⟨g + 1, by simpa using Nat.succ_lt_succ hg, by simpa using hgu⟩

/-- Helper: bumping one slot of the counts list adds one to its sum. -/
theorem sum_set_getD_succ :
    ∀ (l : List Nat) (i : Nat), i < l.length →
      (l.set i (l.getD i 0 + 1)).sum = l.sum + 1 := by
  intro l
  induction l with
  | nil => intro i h; simp at h
  | cons x xs ih =>
    intro i h
    cases i with
    | zero => simp [List.sum_cons]; omega
    | succ j =>
      have hj : j < xs.length := by simpa using h
      rw [List.getD_cons_succ]
      have hset : (x :: xs).set (j + 1) (xs.getD j 0 + 1) =
          x :: xs.set j (xs.getD j 0 + 1) := rfl
      rw [hset, List.sum_cons, List.sum_cons, ih j hj]
      omega

/-- Helper: membership through the descending insert. -/
theorem mem_insertScoreDesc (x y : ScoreEntry) :
    ∀ l, y ∈ insertScoreDesc x l ↔ y = x ∨ y ∈ l := by
  intro l
  induction l with
  | nil => simp [insertScoreDesc]
  | cons z zs ih =>
    rw [insertScoreDesc]
    by_cases hc : x.closeness ≤ z.closeness
    · rw [if_pos hc]
      simp only [List.mem_cons, ih]
      tauto
    · rw [if_neg hc]
      simp only [List.mem_cons]

/-- Helper: membership is preserved by the descending sort. -/
theorem mem_sortScoresDesc (y : ScoreEntry) :
    ∀ l, y ∈ sortScoresDesc l ↔ y ∈ l := by
  have haux : ∀ (l acc : List ScoreEntry),
      (y ∈ l.foldl (fun a x => insertScoreDesc x a) acc ↔ y ∈ acc ∨ y ∈ l) := by
    intro l
    induction l with
    | nil => intro acc; simp
    | cons x xs ih =>
      intro acc
      rw [List.foldl_cons, ih, mem_insertScoreDesc]
      simp only [List.mem_cons]
      tauto
  intro l
  rw [sortScoresDesc, haux l []]
  simp

/-- Helper: the descending sort preserves length. -/
theorem sortScoresDesc_length (l : List ScoreEntry) :
    (sortScoresDesc l).length = l.length := by
  have hins : ∀ (x : ScoreEntry) (acc : List ScoreEntry),
      (insertScoreDesc x acc).length = acc.length + 1 := by
    intro x acc
    induction acc with
    | nil => rfl
    | cons z zs ih =>
      rw [insertScoreDesc]
      by_cases hc : x.closeness ≤ z.closeness
      · rw [if_pos hc]
        simp [ih]
      · rw [if_neg hc]
        simp
  have haux : ∀ (l acc : List ScoreEntry),
      (l.foldl (fun a x => insertScoreDesc x a) acc).length =
        acc.length + l.length := by
    intro l
    induction l with
    | nil => intro acc; simp
    | cons x xs ih =>
      intro acc
      rw [List.foldl_cons, ih, hins]
      simp only [List.length_cons]
      omega
  rw [sortScoresDesc, haux]
  simp

/-- Helper: the chosen best group of a part present in the table is a real
group index. -/
theorem bestGroupFor_lt (scores : List ScoreEntry) (i V : Nat)
    (hvoice : ∀ s ∈ scores, s.voice < V)
    (hne : scores.filter (fun s => s.part == i) ≠ []) :
    ∃ b, bestGroupFor scores i = some b ∧ b < V := by
  unfold bestGroupFor
  cases hs : sortScoresDesc (scores.filter (fun s => s.part == i)) with
  | nil =>
    exfalso
    apply hne
    have hlen := sortScoresDesc_length (scores.filter (fun s => s.part == i))
    rw [hs] at hlen
    exact List.length_eq_zero.mp hlen.symm
  | cons s t =>
    refine ⟨s.voice, rfl, ?_⟩
    have hmem : s ∈ sortScoresDesc (scores.filter (fun s => s.part == i)) := by
      rw [hs]
      exact List.mem_cons_self s t
    rw [mem_sortScoresDesc] at hmem
    exact hvoice s (List.mem_filter.mp hmem).1

/-- Helper: every row of the score table names a voice below V. -/
theorem closenessScores_voice_lt (pI : List (Nat × Int × Int)) (V : Nat)
    (imin islice itotal : Int) :
    ∀ s ∈ closenessScores pI V imin islice itotal, s.voice < V := by
  intro s hs
  rw [closenessScores_eq_flatMap] at hs
  rcases List.mem_flatMap.mp hs with ⟨v, hv, hsm⟩
  rcases List.mem_map.mp hsm with ⟨p, _, rfl⟩
  exact List.mem_range.mp hv

/-- Helper: a part listed in the intervals owns at least one score row. -/
theorem closenessScores_filter_ne (pI : List (Nat × Int × Int)) (V : Nat)
    (imin islice itotal : Int) (p : Nat × Int × Int)
    (hV : 0 < V) (hp : p ∈ pI) :
    (closenessScores pI V imin islice itotal).filter
      (fun s => s.part == p.1) ≠ [] := by
  intro hempty
  set e : ScoreEntry :=
    ⟨p.1, 0, 1 - (((imin + islice * ((0 : Nat) : Int) + 1 - p.2.1).natAbs +
      (imin + islice * ((0 : Nat) : Int) + islice - p.2.2).natAbs : Nat) : Rat)
      / ((itotal : Rat) * 2)⟩ with he
  have hmem : e ∈ closenessScores pI V imin islice itotal := by
    rw [closenessScores_eq_flatMap]
    exact List.mem_flatMap.mpr ⟨0, List.mem_range.mpr hV,
      List.mem_map.mpr ⟨p, hp, rfl⟩⟩
  have hpred : ((fun s : ScoreEntry => s.part == p.1) e) = true := by
    rw [he]
    simp
  have hin : e ∈ (closenessScores pI V imin islice itotal).filter
      (fun s => s.part == p.1) := List.mem_filter.mpr ⟨hmem, hpred⟩
  rw [hempty] at hin
  exact List.not_mem_nil e hin

/-- Helper: on a non-empty interval list, the grouper is the assignment
loop over its enumerated parts, with the score table built from the
extreme ambitus values. -/
theorem identify_eq_assign (intervals : List (Int × Int)) (V : Nat)
    (dist : List Rat) (h : intervals ≠ []) :
    identify_ambitus_groups intervals V dist =
      assignParts
        (closenessScores (intervals.enum.map (fun p => (p.1, p.2.1, p.2.2))) V
          (listMinI (intervals.map (fun p => p.1)))
          ⌈((listMaxI (intervals.map (fun p => p.2)) -
              listMinI (intervals.map (fun p => p.1)) : Int) : Rat) / (V : Rat)⌉
          (listMaxI (intervals.map (fun p => p.2)) -
            listMinI (intervals.map (fun p => p.1))))
        dist intervals.length V
        (intervals.enum.map (fun p => (p.1, p.2.1, p.2.2)))
        (List.replicate V 0) [] := by
  obtain ⟨x, xs, rfl⟩ := List.exists_cons_of_ne_nil h
  rfl

/-- Helper: with target proportions of mass at least 1 the assignment loop
succeeds and assigns every remaining part an in-range group. -/
theorem assignParts_total (scores : List ScoreEntry) (dist : List Rat)
    (n V : Nat) (hV : 0 < V) (hd : dist.length = V) (hds : 1 ≤ dist.sum)
    (hvoice : ∀ s ∈ scores, s.voice < V) :
    ∀ (rest : List (Nat × Int × Int)) (counts : List Nat) (acc : List Int),
      counts.length = V → counts.sum + rest.length ≤ n →
      (∀ p ∈ rest, scores.filter (fun s => s.part == p.1) ≠ []) →
      ∃ l, assignParts scores dist n V rest counts acc = some (acc ++ l) ∧
        l.length = rest.length ∧ ∀ g ∈ l, 0 ≤ g ∧ g < (V : Int) := by
  intro rest
  induction rest with
  | nil =>
    intro counts acc _ _ _
    exact ⟨[], by simp [assignParts], rfl, by simp⟩
  | cons p rest' ih =>
    intro counts acc hclen hcsum hfil
    have hn : 0 < n := by
      have := hcsum
      simp only [List.length_cons] at this
      omega
    obtain ⟨b, hb, hbV⟩ := bestGroupFor_lt scores p.1 V hvoice
      (hfil p (List.mem_cons_self p rest'))
    obtain ⟨gu, hgu, hguu⟩ := exists_underCap counts dist n hn
      (hclen.trans hd.symm)
      (by
        have h1 : (counts.sum : Rat) < (n : Rat) := by
          have hlt : counts.sum < n := by
            simp only [List.length_cons] at hcsum
            omega
          exact_mod_cast hlt
        have h2 : (n : Rat) ≤ (n : Rat) * dist.sum := by
          nlinarith [hds, show (0 : Rat) ≤ (n : Rat) from by positivity]
        linarith)
    obtain ⟨r, hrV, hprobe⟩ := probe_ascend counts dist n V hclen hd
      V b hbV (by omega) ⟨gu, by omega, hguu⟩ (2 * V + 4) (by omega)
    have hget := pyGet_eq_some_getD counts r 0 (by omega)
    have hset := pySet_eq_some counts r (counts.getD r 0 + 1) (by omega)
    obtain ⟨l', hl', hlen', hbound'⟩ := ih
      (counts.set r (counts.getD r 0 + 1)) (acc ++ [(r : Int)])
      (by simp [hclen])
      (by
        rw [sum_set_getD_succ counts r (by omega)]
        simp only [List.length_cons] at hcsum
        omega)
      (fun q hq => hfil q (List.mem_cons_of_mem p hq))
    refine ⟨(r : Int) :: l', ?_, by simp [hlen'], ?_⟩
    · rw [assignParts]
      simp only [hb, hprobe, hget, hset, Option.getD_some]
      rw [hl']
      simp
    · intro g hg
      rcases List.mem_cons.mp hg with rfl | hg'
      · exact ⟨Int.natCast_nonneg r, by exact_mod_cast hrV⟩
      · exact hbound' g hg'

/-- C7, amended.  The claim holds once the proportion list's mass is at
least 1 (as with the default configuration, Σp = 1): the grouper then
terminates and assigns every part one group index in [0, V).  Under the
claim's ±0.001 tolerance alone the statement is false — with Σp = 0.999
and more than 1000 parts the probe walks off the low end of the group
range (see the counterexample). -/
theorem C7_grouping_totality_amended (intervals : List (Int × Int)) (V : Nat)
    (dist : List Rat) (h1 : intervals ≠ []) (h2 : 0 < V)
    (h3 : dist.length = V) (h4 : 1 ≤ dist.sum) :
    ∃ l, identify_ambitus_groups intervals V dist = some l ∧
      l.length = intervals.length ∧ ∀ g ∈ l, 0 ≤ g ∧ g < (V : Int) := by
  obtain ⟨l, hl, hlen, hbd⟩ := assignParts_total
    (closenessScores (intervals.enum.map (fun p => (p.1, p.2.1, p.2.2))) V
      (listMinI (intervals.map (fun p => p.1)))
      ⌈((listMaxI (intervals.map (fun p => p.2)) -
          listMinI (intervals.map (fun p => p.1)) : Int) : Rat) / (V : Rat)⌉
      (listMaxI (intervals.map (fun p => p.2)) -
        listMinI (intervals.map (fun p => p.1))))
    dist intervals.length V h2 h3 h4
    (closenessScores_voice_lt _ V _ _ _)
    (intervals.enum.map (fun p => (p.1, p.2.1, p.2.2)))
    (List.replicate V 0) []
    (by simp)
    (by simp)
    (fun p hp => closenessScores_filter_ne _ V _ _ _ p h2 hp)
  refine ⟨l, ?_, ?_, hbd⟩
  · rw [identify_eq_assign intervals V dist h1, hl]
    simp
  · rw [hlen]
    simp

/-- C7, amended, witness: two parts, V = 2, proportions [1/2, 1/2]. -/
theorem C7_grouping_totality_amended_witness :
    ∃ l, identify_ambitus_groups [(0, 4), (2, 6)] 2 [1/2, 1/2] = some l ∧
      l.length = 2 ∧ ∀ g ∈ l, 0 ≤ g ∧ g < (2 : Int) := by
  have h := C7_grouping_totality_amended [(0, 4), (2, 6)] 2 [1/2, 1/2]
    (by decide) (by decide) (by decide) (by norm_num)
  simpa using h

/-- Helper: the probe stops immediately at an under-capacity group, any
positive fuel. -/
theorem probe_of_underCap' (counts : List Nat) (dist : List Rat)
    (n V fuel : Nat) (g : Nat) (dir : Bool) (hfuel : 0 < fuel)
    (hc : g < counts.length) (hd : g < dist.length)
    (hu : ¬ (dist.getD g 0 < (counts.getD g 0 : Rat) / (n : Rat))) :
    probe counts dist n V fuel (g : Int) dir = some (g : Int) := by
  obtain ⟨f, rfl⟩ : ∃ f, fuel = f + 1 := ⟨fuel - 1, by omega⟩
  exact probe_of_underCap counts dist n V f g dir hc hd hu

/-- Helper: folding min over a constant list. -/
theorem foldl_min_const (c : Int) :
    ∀ (l : List Int) (a : Int), a = c → (∀ x ∈ l, x = c) →
      l.foldl min a = c := by
  intro l
  induction l with
  | nil => intro a ha _; simpa using ha
  | cons x xs ih =>
    intro a ha hall
    rw [List.foldl_cons]
    refine ih (min a x) ?_ (fun y hy => hall y (List.mem_cons_of_mem x hy))
    rw [ha, hall x (List.mem_cons_self x xs)]
    exact min_self c

/-- Helper: folding max over a constant list. -/
theorem foldl_max_const (c : Int) :
    ∀ (l : List Int) (a : Int), a = c → (∀ x ∈ l, x = c) →
      l.foldl max a = c := by
  intro l
  induction l with
  | nil => intro a ha _; simpa using ha
  | cons x xs ih =>
    intro a ha hall
    rw [List.foldl_cons]
    refine ih (max a x) ?_ (fun y hy => hall y (List.mem_cons_of_mem x hy))
    rw [ha, hall x (List.mem_cons_self x xs)]
    exact max_self c

/-- Helper: np.min of a constant non-empty list. -/
theorem listMinI_const (l : List Int) (c : Int) (hne : l ≠ [])
    (hall : ∀ x ∈ l, x = c) : listMinI l = c := by
  unfold listMinI
  refine foldl_min_const c l (l.headD 0) ?_ hall
  obtain ⟨x, xs, rfl⟩ := List.exists_cons_of_ne_nil hne
  simpa using hall x (List.mem_cons_self x xs)

/-- Helper: np.max of a constant non-empty list. -/
theorem listMaxI_const (l : List Int) (c : Int) (hne : l ≠ [])
    (hall : ∀ x ∈ l, x = c) : listMaxI l = c := by
  unfold listMaxI
  refine foldl_max_const c l (l.headD 0) ?_ hall
  obtain ⟨x, xs, rfl⟩ := List.exists_cons_of_ne_nil hne
  simpa using hall x (List.mem_cons_self x xs)

/-- Helper: an enumerated row's index is within the enumeration range. -/
theorem mem_enumFrom_bounds {α : Type} :
    ∀ (l : List α) (k : Nat) (q : Nat × α),
      q ∈ l.enumFrom k → k ≤ q.1 ∧ q.1 < k + l.length := by
  intro l
  induction l with
  | nil => intro k q h; cases h
  | cons x xs ih =>
    intro k q h
    rw [List.enumFrom_cons] at h
    rcases List.mem_cons.mp h with rfl | h'
    · simp
    · have hb := ih (k + 1) q h'
      refine ⟨by omega, ?_⟩
      simp only [List.length_cons]
      omega

/-- Helper: when every interval is the same pair, part i's score rows are
one row per voice, in voice order, with the closeness of that pair. -/
theorem filter_scores_of_const (intervals : List (Int × Int)) (a : Int × Int)
    (V : Nat) (imin islice itotal : Int) (i : Nat)
    (hall : ∀ x ∈ intervals, x = a) (hi : i < intervals.length) :
    (closenessScores (intervals.enum.map (fun p => (p.1, p.2.1, p.2.2))) V
        imin islice itotal).filter (fun s => s.part == i) =
      (List.range V).map (fun v =>
        ⟨i, v, 1 - (((imin + islice * (v : Int) + 1 - a.1).natAbs +
          (imin + islice * (v : Int) + islice - a.2).natAbs : Nat) : Rat)
          / ((itotal : Rat) * 2)⟩) := by
  rw [closenessScores_eq_flatMap, List.filter_flatMap]
  have hblock : ∀ v : Nat,
      ((intervals.enum.map (fun p => (p.1, p.2.1, p.2.2))).map (fun p =>
        (⟨p.1, v, 1 - (((imin + islice * (v : Int) + 1 - p.2.1).natAbs +
          (imin + islice * (v : Int) + islice - p.2.2).natAbs : Nat) : Rat)
          / ((itotal : Rat) * 2)⟩ : ScoreEntry))).filter
        (fun s => s.part == i) =
      [⟨i, v, 1 - (((imin + islice * (v : Int) + 1 - a.1).natAbs +
        (imin + islice * (v : Int) + islice - a.2).natAbs : Nat) : Rat)
        / ((itotal : Rat) * 2)⟩] := by
    intro v
    rw [List.map_map, List.filter_map]
    have hef : intervals.enum.filter
        (fun q => ((fun s : ScoreEntry => s.part == i) ∘
          ((fun p : Nat × Int × Int =>
            (⟨p.1, v, 1 - (((imin + islice * (v : Int) + 1 - p.2.1).natAbs +
              (imin + islice * (v : Int) + islice - p.2.2).natAbs : Nat) : Rat)
              / ((itotal : Rat) * 2)⟩ : ScoreEntry)) ∘
            (fun p : Nat × (Int × Int) => (p.1, p.2.1, p.2.2)))) q) =
        intervals.enum.filter (fun q => q.1 == i) := by
      rfl
    rw [hef]
    rw [show intervals.enum = intervals.enumFrom 0 from rfl]
    rw [enumFrom_filter_const a intervals 0 i hall (Nat.zero_le i)
      (by omega)]
    rfl
  rw [List.flatMap_def, List.map_congr_left (fun v _ => hblock v),
    ← List.flatMap_def, flatMap_singleton_eq_map]

/-- Helper: when all of a part's per-voice closeness values coincide, the
stable descending sort keeps voice order and the best group is voice 0. -/
theorem bestGroupFor_of_const_closeness (scores : List ScoreEntry) (i V : Nat)
    (q : Rat) (clos : Nat → Rat) (hV : 0 < V)
    (hfil : scores.filter (fun s => s.part == i) =
      (List.range V).map (fun v => ⟨i, v, clos v⟩))
    (hq : ∀ v, v < V → clos v = q) :
    bestGroupFor scores i = some 0 := by
  unfold bestGroupFor
  rw [hfil, sortScoresDesc_of_const q _ (by
    intro s hs
    rcases List.mem_map.mp hs with ⟨v, hv, rfl⟩
    exact hq v (List.mem_range.mp hv))]
  obtain ⟨W, rfl⟩ : ∃ W, V = W + 1 := ⟨V - 1, by omega⟩
  rw [List.range_succ_eq_map, List.map_cons]

/-- Helper: when every part's best group is 0 and group 0 stays under
capacity throughout, the assignment loop sends every part to group 0. -/
theorem assign_all_zero (scores : List ScoreEntry) (dist : List Rat)
    (n V : Nat)
    (hcap : ∀ k : Nat, k < n → ¬ (dist.getD 0 0 < (k : Rat) / (n : Rat)))
    (hdlen : 0 < dist.length) :
    ∀ (rest : List (Nat × Int × Int)) (k : Nat) (cs : List Nat)
      (acc : List Int),
      (∀ p ∈ rest, bestGroupFor scores p.1 = some 0) →
      k + rest.length ≤ n →
      assignParts scores dist n V rest (k :: cs) acc =
        some (acc ++ List.replicate rest.length 0) := by
  intro rest
  induction rest with
  | nil => intro k cs acc _ _; simp [assignParts]
  | cons p rest' ih =>
    intro k cs acc hbest hsum
    have hkn : k < n := by
      simp only [List.length_cons] at hsum
      omega
    have hu : ¬ (dist.getD 0 0 < ((k :: cs).getD 0 0 : Rat) / (n : Rat)) := by
      simpa using hcap k hkn
    have hprobe := probe_of_underCap' (k :: cs) dist n V (2 * V + 4) 0 true
      (by omega) (by simp) hdlen hu
    have hget := pyGet_eq_some_getD (k :: cs) 0 0 (by simp)
    have hset := pySet_eq_some (k :: cs) 0 ((k :: cs).getD 0 0 + 1) (by simp)
    rw [assignParts]
    simp only [hbest p (List.mem_cons_self p rest'), Nat.cast_zero] at *
    simp only [hprobe, hget, hset, Option.getD_some]
    have hsetv : (k :: cs).set 0 ((k :: cs).getD 0 0 + 1) = (k + 1) :: cs := rfl
    rw [hsetv, ih (k + 1) cs (acc ++ [(0 : Int)])
      (fun q hq => hbest q (List.mem_cons_of_mem p hq))
      (by simp only [List.length_cons] at hsum; omega)]
    simp [List.replicate_succ]

/-- C6, amended.  With interval_total = 0 (every part spans the same single
pitch) the grouper runs without error: the shared degenerate closeness
(numpy's -inf on every row, division by zero yielding one equal value per
row here) makes every part rank group 0 first, and parts are assigned to
group 0 as long as it stays under capacity.  Every part lands in group 0
provided group 0's proportion admits all of them, i.e.
(n-1)/n ≤ p_0; without that proviso the capacity probe diverts overflow
parts to other groups (see the counterexample). -/
theorem C6_degenerate_ambitus_amended (intervals : List (Int × Int)) (c : Int)
    (V : Nat) (dist : List Rat) (hne : intervals ≠ [])
    (hall : ∀ iv ∈ intervals, iv = (c, c)) (hV : 0 < V)
    (hd : dist.length = V)
    (hcap : ((intervals.length - 1 : Nat) : Rat) / (intervals.length : Rat) ≤
      dist.getD 0 0) :
    identify_ambitus_groups intervals V dist =
      some (List.replicate intervals.length 0) := by
  rw [identify_eq_assign intervals V dist hne]
  have hmin : listMinI (intervals.map (fun p => p.1)) = c := by
    refine listMinI_const _ c (by simpa using hne) ?_
    intro x hx
    rcases List.mem_map.mp hx with ⟨p, hp, rfl⟩
    rw [hall p hp]
  have hmax : listMaxI (intervals.map (fun p => p.2)) = c := by
    refine listMaxI_const _ c (by simpa using hne) ?_
    intro x hx
    rcases List.mem_map.mp hx with ⟨p, hp, rfl⟩
    rw [hall p hp]
  rw [hmin, hmax, sub_self]
  have hceil : (⌈((0 : Int) : Rat) / (V : Rat)⌉ : Int) = 0 := by
    simp
  rw [hceil]
  have hn : 0 < intervals.length := by
    cases intervals with
    | nil => exact absurd rfl hne
    | cons x xs => simp
  have hcap' : ∀ k : Nat, k < intervals.length →
      ¬ (dist.getD 0 0 < (k : Rat) / (intervals.length : Rat)) := by
    intro k hk
    rw [not_lt]
    refine le_trans ?_ hcap
    have hk' : (k : Rat) ≤ ((intervals.length - 1 : Nat) : Rat) := by
      exact_mod_cast (by omega : k ≤ intervals.length - 1)
    have hpos : (0 : Rat) < (intervals.length : Rat) := by positivity
    exact div_le_div_of_nonneg_right hk' hpos.le
  have hpilen : (intervals.enum.map
      (fun p => (p.1, p.2.1, p.2.2))).length = intervals.length := by
    simp
  have hbest : ∀ p ∈ intervals.enum.map (fun p => (p.1, p.2.1, p.2.2)),
      bestGroupFor (closenessScores
        (intervals.enum.map (fun p => (p.1, p.2.1, p.2.2))) V c 0 0)
        p.1 = some 0 := by
    intro p hp
    have hi : p.1 < intervals.length := by
      rcases List.mem_map.mp hp with ⟨q, hq, rfl⟩
      have hb := mem_enumFrom_bounds intervals 0 q hq
      omega
    refine bestGroupFor_of_const_closeness _ p.1 V 1
      (fun v => 1 - (((c + 0 * (v : Int) + 1 - c).natAbs +
        (c + 0 * (v : Int) + 0 - c).natAbs : Nat) : Rat)
        / (((0 : Int) : Rat) * 2)) hV
      (filter_scores_of_const intervals (c, c) V c 0 0 p.1 hall hi) ?_
    intro v _
    show 1 - (((c + 0 * (v : Int) + 1 - c).natAbs +
      (c + 0 * (v : Int) + 0 - c).natAbs : Nat) : Rat)
      / (((0 : Int) : Rat) * 2) = 1
    have h1 : c + 0 * (v : Int) + 1 - c = 1 := by ring
    have h2 : c + 0 * (v : Int) + 0 - c = 0 := by ring
    rw [h1, h2]
    norm_num
  obtain ⟨W, rfl⟩ : ∃ W, V = W + 1 := ⟨V - 1, by omega⟩
  rw [List.replicate_succ]
  rw [assign_all_zero (closenessScores
      (intervals.enum.map (fun p => (p.1, p.2.1, p.2.2))) (W + 1) c 0 0)
    dist intervals.length (W + 1) hcap' (by omega)
    (intervals.enum.map (fun p => (p.1, p.2.1, p.2.2))) 0
    (List.replicate W 0) [] hbest (by rw [hpilen]; omega)]
  rw [hpilen]
  simp

/-- C6, amended, witness: three parts on the single pitch 5, V = 2,
proportions [3/4, 1/4]. -/
theorem C6_degenerate_ambitus_amended_witness :
    identify_ambitus_groups [(5, 5), (5, 5), (5, 5)] 2 [3/4, 1/4] =
      some (List.replicate 3 0) := by
  refine C6_degenerate_ambitus_amended [(5, 5), (5, 5), (5, 5)] 5 2 [3/4, 1/4]
    (by decide) (by decide) (by decide) (by decide) ?_
  norm_num

/-- Helper: on single-group inputs with proportion 999/1000 and 1001
parts, once 1000 parts are assigned the probe walks from group 0 to
index -1 (still the same over-capacity cell under Python's negative
indexing) and then to -2, which raises IndexError: the loop returns no
assignment. -/
theorem assign_crash_999 (scores : List ScoreEntry) :
    ∀ (rest : List (Nat × Int × Int)) (p : Nat × Int × Int) (k : Nat)
      (acc : List Int),
      (∀ q ∈ (p :: rest), bestGroupFor scores q.1 = some 0) →
      k + rest.length = 1000 →
      assignParts scores [mkRat 999 1000] 1001 1 (p :: rest) [k] acc =
        none := by
  intro rest
  induction rest with
  | nil =>
    intro p k acc hbest hk
    have hk' : k = 1000 := by simpa using hk
    subst hk'
    rw [assignParts]
    simp only [hbest p (List.mem_cons_self p _), Nat.cast_zero]
    have hpr : probe [1000] [mkRat 999 1000] 1001 1 (2 * 1 + 4)
        (0 : Int) true = none := by
      with_unfolding_all decide
    simp only [hpr]
  | cons p' rest' ih =>
    intro p k acc hbest hk
    have hkle : k ≤ 999 := by
      simp only [List.length_cons] at hk
      omega
    rw [assignParts]
    simp only [hbest p (List.mem_cons_self p _), Nat.cast_zero]
    have hu' : ¬ (([mkRat 999 1000].getD 0 0) <
        (([k].getD 0 0 : Nat) : Rat) / ((1001 : Nat) : Rat)) := by
      simp only [List.getD_cons_zero]
      rw [not_lt, Rat.mkRat_eq_div]
      rw [div_le_div_iff (by norm_num) (by norm_num)]
      push_cast
      have hkq : (k : Rat) ≤ 999 := by exact_mod_cast hkle
      linarith
    have hprobe := probe_of_underCap' [k] [mkRat 999 1000] 1001 1 (2 * 1 + 4)
      0 true (by omega) (by simp) (by simp) hu'
    simp only [Nat.cast_zero] at hprobe
    have hget := pyGet_eq_some_getD [k] 0 0 (by simp)
    have hset := pySet_eq_some [k] 0 ([k].getD 0 0 + 1) (by simp)
    simp only [Nat.cast_zero] at hget hset
    simp only [hprobe, hget, hset, Option.getD_some]
    have hsetv : ([k].set 0 ([k].getD 0 0 + 1)) = [k + 1] := rfl
    rw [hsetv]
    exact ih p' (k + 1) (acc ++ [(0 : Int)])
      (fun q hq => hbest q (List.mem_cons_of_mem p hq))
      (by simp only [List.length_cons] at hk; omega)

/-- C7, counterexample.  The claim's preconditions admit V = 1,
proportions [999/1000] (each in (0,1], sum within 1 ± 0.001, accepted by
the program's own health check) and 1001 parts; there the 1001st part
finds group 0 over capacity (1000/1001 > 999/1000) and the probe, with
direction flipped at the single group, steps to index -1 — Python reads
the same over-capacity cell from the back — and then to -2, raising
IndexError: the grouper does not assign every part a group in [0, V). -/
theorem C7_probe_divergence_counterexample :
    identify_ambitus_groups (List.replicate 1001 ((0 : Int), (1 : Int))) 1
      [mkRat 999 1000] = none := by
  have hne : (List.replicate 1001 ((0 : Int), (1 : Int))) ≠ [] := by
    intro h
    have hl := congrArg List.length h
    simp only [List.length_replicate, List.length_nil] at hl
    omega
  rw [identify_eq_assign _ 1 _ hne]
  have hmapne : ∀ (f : Int × Int → Int),
      (List.replicate 1001 ((0 : Int), (1 : Int))).map f ≠ [] := by
    intro f h
    have hl := congrArg List.length h
    simp only [List.length_map, List.length_replicate, List.length_nil] at hl
    omega
  have hmin : listMinI ((List.replicate 1001 ((0 : Int), (1 : Int))).map
      (fun p => p.1)) = 0 := by
    refine listMinI_const _ 0 (hmapne _) ?_
    intro x hx
    rcases List.mem_map.mp hx with ⟨p, hp, rfl⟩
    rw [List.eq_of_mem_replicate hp]
  have hmax : listMaxI ((List.replicate 1001 ((0 : Int), (1 : Int))).map
      (fun p => p.2)) = 1 := by
    refine listMaxI_const _ 1 (hmapne _) ?_
    intro x hx
    rcases List.mem_map.mp hx with ⟨p, hp, rfl⟩
    rw [List.eq_of_mem_replicate hp]
  rw [hmin, hmax]
  have h1 : (1 : Int) - 0 = 1 := by norm_num
  rw [h1]
  have hceil : (⌈((1 : Int) : Rat) / ((1 : Nat) : Rat)⌉ : Int) = 1 := by
    norm_num
  rw [hceil]
  simp only [List.length_replicate, List.replicate_one]
  have hbest : ∀ q ∈ (List.replicate 1001 ((0 : Int), (1 : Int))).enum.map
      (fun p => (p.1, p.2.1, p.2.2)),
      bestGroupFor (closenessScores
        ((List.replicate 1001 ((0 : Int), (1 : Int))).enum.map
          (fun p => (p.1, p.2.1, p.2.2))) 1 0 1 1) q.1 = some 0 := by
    intro q hq
    have hi : q.1 < 1001 := by
      rcases List.mem_map.mp hq with ⟨r, hr, rfl⟩
      have hb := mem_enumFrom_bounds _ 0 r hr
      simp only [List.length_replicate] at hb
      omega
    refine bestGroupFor_of_const_closeness _ q.1 1
      (1 - ((((0 : Int) + 1 * ((0 : Nat) : Int) + 1 -
          ((0 : Int), (1 : Int)).1).natAbs +
        ((0 : Int) + 1 * ((0 : Nat) : Int) + 1 -
          ((0 : Int), (1 : Int)).2).natAbs : Nat) : Rat)
        / (((1 : Int) : Rat) * 2))
      (fun v => 1 - ((((0 : Int) + 1 * (v : Int) + 1 -
          ((0 : Int), (1 : Int)).1).natAbs +
        ((0 : Int) + 1 * (v : Int) + 1 -
          ((0 : Int), (1 : Int)).2).natAbs : Nat) : Rat)
        / (((1 : Int) : Rat) * 2)) (by omega)
      (filter_scores_of_const
        (List.replicate 1001 ((0 : Int), (1 : Int))) ((0 : Int), (1 : Int))
        1 0 1 1 q.1 (fun x hx => List.eq_of_mem_replicate hx) (by
          simp only [List.length_replicate]
          omega)) ?_
    intro v hv
    have hv0 : v = 0 := by omega
    subst hv0
    rfl
  set pI := (List.replicate 1001 ((0 : Int), (1 : Int))).enum.map
    (fun p => (p.1, p.2.1, p.2.2)) with hpIdef
  have hlen : pI.length = 1001 := by
    rw [hpIdef]
    rw [List.length_map, List.enum_length, List.length_replicate]
  cases hpc : pI with
  | nil =>
    rw [hpc] at hlen
    simp at hlen
  | cons p rest =>
    rw [hpc] at hbest hlen
    simp only [List.length_cons] at hlen
    exact assign_crash_999 _ rest p 0 [] hbest (by omega)
